import Mathlib

/-!
Verification development for the Figma & Jira MCP server repository.

Shallow embedding, in two parts:

* Code-based part (translated from the provided sources):
  - `JiraService.extractIssueKey` (src/src/services/jira.ts, lines 280-284),
    the regex `\/browse\/([A-Z]+-\d+)` modelled over lists of characters with
    the JS engine's leftmost-match, greedy-quantifier semantics;
  - the key-resolution prefix of the `get_jira_issue` tool handler
    (src/unnamed/part_001, lines 121-135), with JS string truthiness;
  - the fetch dispatch of the `get_figma_data` tool handler
    (src/unnamed/part_001, lines 77-82);
  - the result assembly of the `get_figma_data` tool handler
    (src/unnamed/part_001, lines 85-91), which stringifies each node
    separately and splices the pieces into a three-key object template.

* Spec-modelled part: the design-tree simplification pipeline
  (StyleExtractor, GlobalVariableTable, NodeWalker, SimplifiedNodeBuilder,
  ResultAssembler) lives in `src/services/simplify-node-response.ts` and
  `src/services/figma.ts`, which are not among the provided source files;
  those components are modelled from the specification's own description
  and marked `Modelled from the spec:` below.

Strings manipulated character-by-character (the Jira regex) are modelled as
`List Char`; strings used only as opaque scalars keep `String`.
-/

namespace JiraFigmaMcp

/-! ## Jira issue-key extraction (from src/src/services/jira.ts) -/

/-- JS truthiness of an optional string value: `undefined` and the empty
string are falsy, every other string is truthy. -/
def truthy : Option (List Char) → Bool
  | none => false
  | some s => !s.isEmpty

/-- The character class `[A-Z]` of the issue-key regex. -/
def upperAZ (c : Char) : Bool := 'A' ≤ c && c ≤ 'Z'

/-- The character class `\d` of the issue-key regex (ASCII digits). -/
def digit09 (c : Char) : Bool := '0' ≤ c && c ≤ '9'

/-- The literal `/browse/` that anchors the issue-key regex. -/
def browseLit : List Char := ['/', 'b', 'r', 'o', 'w', 's', 'e', '/']

/-- Attempt the capture group `([A-Z]+-\d+)` at the very start of `l`
(the text right after a `/browse/` occurrence).  The greedy quantifiers
need no backtracking here: `[A-Z]` and `-` are disjoint, so only the
maximal uppercase run can be followed by the hyphen, and `\d+` ends the
pattern, so the maximal digit run stands.  Returns the captured text. -/
def matchKeyAt (l : List Char) : Option (List Char) :=
  let us := l.takeWhile upperAZ
  if us.isEmpty then none
  else
    match l.dropWhile upperAZ with
    | '-' :: r =>
        let ds := r.takeWhile digit09
        if ds.isEmpty then none else some (us ++ '-' :: ds)
    | _ => none

/-- Leftmost match of `\/browse\/([A-Z]+-\d+)`: scan positions left to
right as the JS regex engine does; at each position require the literal
`/browse/` followed by a successful `matchKeyAt`; return capture group 1
of the first success. -/
def findBrowseKey : List Char → Option (List Char)
  | [] => none
  | c :: rest =>
      if (c :: rest).take 8 = browseLit then
        match matchKeyAt ((c :: rest).drop 8) with
        | some k => some k
        | none => findBrowseKey rest
      else findBrowseKey rest

namespace JiraService

/-- `JiraService.extractIssueKey` (src/src/services/jira.ts lines 280-284):
`url.match(/\/browse\/([A-Z]+-\d+)/)` returning capture group 1 of the
leftmost match, or null (here `none`) when there is no match. -/
def extractIssueKey (url : List Char) : Option (List Char) :=
  findBrowseKey url

end JiraService

/-- Key-resolution prefix of the `get_jira_issue` tool handler
(src/unnamed/part_001 lines 121-135):
`let key = issueKey; if (!key && issueUrl) key = extractIssueKey(issueUrl) || '';
if (!key) return <error result>;` and otherwise the handler proceeds to
fetch `key`.  Returns the key it proceeds with, or `none` for the error
result "Error: No valid Jira issue key or URL provided" (the error branch
returns before any Jira API request is issued). -/
def getJiraIssueResolvedKey (issueKey issueUrl : Option (List Char)) : Option (List Char) :=
  let key := issueKey
  let key :=
    if !truthy key && truthy issueUrl then
      some ((JiraService.extractIssueKey (issueUrl.getD [])).getD [])
    else key
  if truthy key then key else none

/-- Specification-side shape of a Jira issue key as the claim words it:
one or more uppercase ASCII letters, a hyphen, one or more digits. -/
def keyShape (s : List Char) : Prop :=
  ∃ a b, s = a ++ '-' :: b ∧ a ≠ [] ∧ (∀ c ∈ a, upperAZ c) ∧ b ≠ [] ∧ (∀ c ∈ b, digit09 c)

/-- Specification-side: `s` occurs in `url` immediately after `/browse/`. -/
def afterBrowse (url s : List Char) : Prop :=
  ∃ p q, url = p ++ browseLit ++ s ++ q

/-! ## get_figma_data fetch dispatch (from src/unnamed/part_001) -/

/-- JS truthiness of an optional `String` scalar. -/
def truthyS : Option String → Bool
  | none => false
  | some s => !(s = "")

/-- The Figma fetch a `get_figma_data` call performs. -/
inductive FigmaFetchCall where
  | getNode (fileKey nodeId : String) (depth : Option Nat)
  | getFile (fileKey : String) (depth : Option Nat)
deriving DecidableEq

/-- Fetch dispatch of the `get_figma_data` handler (src/unnamed/part_001
lines 77-82): `if (nodeId) file = getNode(fileKey, nodeId, depth) else
file = getFile(fileKey, depth)`, with JS truthiness on `nodeId` and the
optional `depth` passed through unchanged on both branches. -/
def getFigmaDataFetch (fileKey : String) (nodeId : Option String) (depth : Option Nat) :
    FigmaFetchCall :=
  if truthyS nodeId then
    FigmaFetchCall.getNode fileKey (nodeId.getD "") depth
  else
    FigmaFetchCall.getFile fileKey depth

/-! ## The simplification pipeline

Modelled from the spec: the module `src/services/simplify-node-response.ts`
(StyleExtractor, GlobalVariableTable, NodeWalker, SimplifiedNodeBuilder,
ResultAssembler) is not among the provided sources; the definitions below
follow sections 3 and 4 of the specification.  The open canonicalization
rules (color encoding, which values count as defaults) are instantiated
with one concrete deterministic choice, as the spec instructs an
implementer to do. -/

/-- Modelled from the spec: one raw paint of a RawNode's `fills`/`strokes`
(visual properties), before canonicalization: color channels, opacity in
percent, and an optional image reference for image-backed fills. -/
structure RawPaint where
  red : Nat
  green : Nat
  blue : Nat
  alphaPct : Nat
  imageRef : Option String
deriving DecidableEq

/-- Modelled from the spec: canonical paint encoding in a StyleRecord —
colors reduced to one canonical numeric encoding, image fills to their
reference. -/
inductive Paint where
  | solid (rgba : Nat)
  | image (ref : String)
deriving DecidableEq

/-- Canonicalize one raw paint (the spec's "colors reduced to one
canonical encoding"). -/
def canonPaint (p : RawPaint) : Paint :=
  match p.imageRef with
  | some r => Paint.image r
  | none => Paint.solid ((((p.red * 256) + p.green) * 256 + p.blue) * 101 + p.alphaPct)

/-- Modelled from the spec: the non-recursive payload of a RawNode —
id, type tag and name (id and type tag may be absent: the raw tree is
irregularly shaped), visual properties, layout properties for container
nodes, literal characters and font properties for text nodes. -/
structure RawProps where
  id : Option String
  type : Option String
  name : String
  fills : List RawPaint
  strokes : List RawPaint
  strokeWeight : Option Nat
  cornerRadius : Option Nat
  opacityPct : Option Nat
  layoutMode : Option String
  paddingPx : Option Nat
  itemSpacing : Option Nat
  characters : Option String
  fontFamily : Option String
  fontSize : Option Nat
  fontWeight : Option Nat
  lineHeightPct : Option Nat
deriving DecidableEq

/-- Modelled from the spec: a RawNode — a payload of properties plus the
ordered list of children. -/
inductive RawNode where
  | node (props : RawProps) (children : List RawNode)

/-- The payload of a raw node. -/
def RawNode.props : RawNode → RawProps
  | RawNode.node p _ => p

/-- The ordered children of a raw node. -/
def RawNode.children : RawNode → List RawNode
  | RawNode.node _ cs => cs

/-- A raw node is structurally valid when it carries both required
identifying fields (an id and a type tag). -/
def rawValid (r : RawNode) : Bool :=
  r.props.id.isSome && r.props.type.isSome

/-- The id of a raw node, defaulted for the malformed case. -/
def rawId (r : RawNode) : String :=
  (r.props.id).getD ""

/-- Modelled from the spec: a StyleRecord — canonical mapping from the
fixed set of recognized property names to normalized values; absent or
default-valued properties are `none` (omitted). -/
structure StyleRecord where
  fills : List Paint
  strokes : List Paint
  strokeWeight : Option Nat
  cornerRadius : Option Nat
  opacity : Option Nat
  layoutMode : Option String
  paddingPx : Option Nat
  itemSpacing : Option Nat
  fontFamily : Option String
  fontSize : Option Nat
  fontWeight : Option Nat
  lineHeightPct : Option Nat
deriving DecidableEq

/-- Node categories whose layout properties are extracted (containers). -/
def containerTypes : List String := ["FRAME", "GROUP", "COMPONENT", "INSTANCE", "SECTION"]

/-- Node categories with paint/geometry styling only (shapes). -/
def shapeTypes : List String :=
  ["RECTANGLE", "ELLIPSE", "VECTOR", "LINE", "POLYGON", "STAR", "BOOLEAN_OPERATION"]

/-- Node categories carrying literal text. -/
def textTypes : List String := ["TEXT"]

/-- A type tag is recognized when some category claims it. -/
def recognizedType (t : String) : Bool :=
  containerTypes.contains t || shapeTypes.contains t || textTypes.contains t

/-- Modelled from the spec: StyleExtractor — normalize one node's
visual/layout properties into a canonical StyleRecord.  Paint properties
for every recognized node; layout properties only for containers; font
properties only for text nodes; the default opacity (100%) is omitted. -/
def extractStyle (p : RawProps) : StyleRecord :=
  let ty := p.type.getD ""
  let base : StyleRecord :=
    { fills := p.fills.map canonPaint
      strokes := p.strokes.map canonPaint
      strokeWeight := p.strokeWeight
      cornerRadius := p.cornerRadius
      opacity := if p.opacityPct = some 100 then none else p.opacityPct
      layoutMode := none
      paddingPx := none
      itemSpacing := none
      fontFamily := none
      fontSize := none
      fontWeight := none
      lineHeightPct := none }
  let withLayout :=
    if containerTypes.contains ty then
      { base with
          layoutMode := p.layoutMode
          paddingPx := p.paddingPx
          itemSpacing := p.itemSpacing }
    else base
  if textTypes.contains ty then
    { withLayout with
        fontFamily := p.fontFamily
        fontSize := p.fontSize
        fontWeight := p.fontWeight
        lineHeightPct := p.lineHeightPct }
  else withLayout

/-- Modelled from the spec: the GlobalVariableTable — an append-only
run-scoped table of entries `varId ↦ StyleRecord` plus the monotonic
counter used to allocate fresh varIds. -/
structure GlobalVariableTable where
  entries : List (Nat × StyleRecord)
  nextId : Nat
deriving DecidableEq

/-- The fresh table each conversion run starts from. -/
def GlobalVariableTable.empty : GlobalVariableTable := ⟨[], 0⟩

/-- The varIds present in a table. -/
def GlobalVariableTable.keys (t : GlobalVariableTable) : List Nat :=
  t.entries.map Prod.fst

/-- Modelled from the spec: `intern(record) -> varId` — on first
occurrence of a canonical content allocate a fresh varId from the
monotonic counter and append the entry; on a later occurrence with
content-equal record return the previously allocated varId and leave the
table unchanged. -/
def intern (t : GlobalVariableTable) (r : StyleRecord) : Nat × GlobalVariableTable :=
  match t.entries.find? (fun e => decide (e.2 = r)) with
  | some e => (e.1, t)
  | none => (t.nextId, ⟨t.entries ++ [(t.nextId, r)], t.nextId + 1⟩)

/-- Modelled from the spec: a SimplifiedNode — id, name, type tag,
optional literal text, the styleRefs (varIds) attached by the builder,
and the ordered simplified children. -/
inductive SimplifiedNode where
  | node (id name type : String) (text : Option String)
      (styleRefs : List Nat) (children : List SimplifiedNode)

/-- The id of a simplified node. -/
def SimplifiedNode.id : SimplifiedNode → String
  | SimplifiedNode.node i _ _ _ _ _ => i

/-- The type tag of a simplified node. -/
def SimplifiedNode.type : SimplifiedNode → String
  | SimplifiedNode.node _ _ ty _ _ _ => ty

/-- The styleRefs of a simplified node. -/
def SimplifiedNode.styleRefs : SimplifiedNode → List Nat
  | SimplifiedNode.node _ _ _ _ refs _ => refs

/-- The ordered children of a simplified node. -/
def SimplifiedNode.children : SimplifiedNode → List SimplifiedNode
  | SimplifiedNode.node _ _ _ _ _ cs => cs

mutual

/-- Modelled from the spec: NodeWalker plus SimplifiedNodeBuilder for one
raw node.  A node missing id or type tag is skipped (`none`) and the
table is left untouched; a recognized node has its style extracted and
interned and carries the resulting styleRef; an unrecognized type
degrades to a minimal generic node (id, name, type, children) with no
styleRefs; when the remaining depth budget is `some 0` the node is
emitted with an empty children sequence and its descendants are not
visited. -/
def buildNode : RawNode → Option Nat → GlobalVariableTable →
    Option SimplifiedNode × GlobalVariableTable
  | RawNode.node p cs, d, t =>
      match p.id, p.type with
      | some i, some ty =>
          if recognizedType ty then
            let v := intern t (extractStyle p)
            match d with
            | some 0 =>
                (some (SimplifiedNode.node i p.name ty
                  (if textTypes.contains ty then p.characters else none) [v.1] []), v.2)
            | some (dd + 1) =>
                let ks := buildChildren cs (some dd) v.2
                (some (SimplifiedNode.node i p.name ty
                  (if textTypes.contains ty then p.characters else none) [v.1] ks.1), ks.2)
            | none =>
                let ks := buildChildren cs none v.2
                (some (SimplifiedNode.node i p.name ty
                  (if textTypes.contains ty then p.characters else none) [v.1] ks.1), ks.2)
          else
            match d with
            | some 0 => (some (SimplifiedNode.node i p.name ty none [] []), t)
            | some (dd + 1) =>
                let ks := buildChildren cs (some dd) t
                (some (SimplifiedNode.node i p.name ty none [] ks.1), ks.2)
            | none =>
                let ks := buildChildren cs none t
                (some (SimplifiedNode.node i p.name ty none [] ks.1), ks.2)
      | _, _ => (none, t)

/-- Modelled from the spec: the walker over an ordered sibling list —
children are visited in their original order, a skipped (malformed)
node contributes nothing and the walk continues with its siblings. -/
def buildChildren : List RawNode → Option Nat → GlobalVariableTable →
    List SimplifiedNode × GlobalVariableTable
  | [], _, t => ([], t)
  | c :: cs, d, t =>
      let hd := buildNode c d t
      let tl := buildChildren cs d hd.2
      (match hd.1 with
       | some s => s :: tl.1
       | none => tl.1, tl.2)

end

/-- Modelled from the spec: the SimplifiedDesign envelope — file-level
metadata (name, last-modified timestamp), the ordered simplified root
nodes, and the final GlobalVariableTable snapshot. -/
structure SimplifiedDesign where
  name : String
  lastModified : String
  nodes : List SimplifiedNode
  globalVars : List (Nat × StyleRecord)

/-- Modelled from the spec: one whole conversion run (ResultAssembler):
walk the requested roots with a fresh table and assemble metadata, the
ordered root nodes and the table's final snapshot. -/
def parseDesign (name lastModified : String) (roots : List RawNode) (maxDepth : Option Nat) :
    SimplifiedDesign :=
  let built := buildChildren roots maxDepth GlobalVariableTable.empty
  { name := name
    lastModified := lastModified
    nodes := built.1
    globalVars := built.2.entries }

/-- Ambient mutable server state that a stateful implementation could
observe across tool calls; the conversion must not depend on it. -/
structure ServerState where
  callCount : Nat
deriving DecidableEq

/-- Modelled from the spec: one `get_figma_data` conversion call as the
server performs it — each invocation constructs and owns a fresh
GlobalVariableTable (the lifecycle of section 3) and reads nothing from
the ambient server state. -/
def runConversion (s : ServerState) (name lastModified : String) (roots : List RawNode)
    (maxDepth : Option Nat) : SimplifiedDesign × ServerState :=
  (parseDesign name lastModified roots maxDepth, ⟨s.callCount + 1⟩)

/-! ## get_figma_data result assembly (from src/unnamed/part_001, lines 85-91)

The handler destructures `const { nodes, globalVars, ...metadata } = file`,
stringifies every node of `nodes` separately
(`nodes.map((node) => JSON.stringify(node, null, 2)).join(",")`), and
splices the pieces into the template
`{ "metadata": M, "nodes": [N], "globalVars": G }`.
`JSON.stringify`'s pretty-printing indentation is elided here (it carries
no structure); the serializer below is compositional over a small JSON
value type. -/

/-- A JSON value. -/
inductive Json where
  | str (s : String)
  | num (n : Int)
  | arr (elems : List Json)
  | obj (fields : List (String × Json))

mutual

/-- Compositional JSON serializer (whitespace convention matching the
handler's template: braces padded with one space, `", "` between object
fields, `": "` after a key, array elements joined by a bare comma). -/
def jsonStr : Json → String
  | Json.str s => "\"" ++ s ++ "\""
  | Json.num n => toString n
  | Json.arr es => "[" ++ jsonArrStr es ++ "]"
  | Json.obj fs => "\x7b " ++ jsonObjStr fs ++ " \x7d"

/-- Serialize array elements, comma-separated. -/
def jsonArrStr : List Json → String
  | [] => ""
  | [e] => jsonStr e
  | e :: e2 :: rest => jsonStr e ++ "," ++ jsonArrStr (e2 :: rest)

/-- Serialize object fields, comma-separated. -/
def jsonObjStr : List (String × Json) → String
  | [] => ""
  | [f] => "\"" ++ f.1 ++ "\": " ++ jsonStr f.2
  | f :: f2 :: rest => "\"" ++ f.1 ++ "\": " ++ jsonStr f.2 ++ ", " ++ jsonObjStr (f2 :: rest)

end

/-- The top-level keys of a serialized JSON value (empty for non-objects). -/
def jsonTopKeys : Json → List String
  | Json.obj fs => fs.map Prod.fst
  | _ => []

/-- `Array.prototype.join(",")` of JavaScript. -/
def joinComma : List String → String
  | [] => ""
  | [s] => s
  | s :: s2 :: rest => s ++ "," ++ joinComma (s2 :: rest)

/-- The printed form of a varId (table keys in the serialized output). -/
def varIdStr (v : Nat) : String := "var_" ++ toString v

/-- JSON encoding of one canonical paint. -/
def paintJson : Paint → Json
  | Paint.solid rgba => Json.obj [("type", Json.str "SOLID"), ("rgba", Json.num rgba)]
  | Paint.image r => Json.obj [("type", Json.str "IMAGE"), ("imageRef", Json.str r)]

/-- JSON field for an optional numeric property (omitted when absent). -/
def optNatField (k : String) : Option Nat → List (String × Json)
  | none => []
  | some n => [(k, Json.num n)]

/-- JSON field for an optional string property (omitted when absent). -/
def optStrField (k : String) : Option String → List (String × Json)
  | none => []
  | some s => [(k, Json.str s)]

/-- JSON encoding of a StyleRecord (globalVars entry payload). -/
def styleJson (r : StyleRecord) : Json :=
  Json.obj
    ([("fills", Json.arr (r.fills.map paintJson)),
      ("strokes", Json.arr (r.strokes.map paintJson))]
      ++ optNatField "strokeWeight" r.strokeWeight
      ++ optNatField "cornerRadius" r.cornerRadius
      ++ optNatField "opacity" r.opacity
      ++ optStrField "layoutMode" r.layoutMode
      ++ optNatField "padding" r.paddingPx
      ++ optNatField "itemSpacing" r.itemSpacing
      ++ optStrField "fontFamily" r.fontFamily
      ++ optNatField "fontSize" r.fontSize
      ++ optNatField "fontWeight" r.fontWeight
      ++ optNatField "lineHeight" r.lineHeightPct)

mutual

/-- JSON encoding of one SimplifiedNode (what `JSON.stringify(node, ...)`
serializes). -/
def nodeJson : SimplifiedNode → Json
  | SimplifiedNode.node i nm ty tx refs cs =>
      Json.obj
        ([("id", Json.str i), ("name", Json.str nm), ("type", Json.str ty)]
          ++ optStrField "text" tx
          ++ [("styleRefs", Json.arr (refs.map (fun v => Json.str (varIdStr v)))),
              ("children", Json.arr (forestJson cs))])

/-- JSON encoding of an ordered list of SimplifiedNodes. -/
def forestJson : List SimplifiedNode → List Json
  | [] => []
  | c :: cs => nodeJson c :: forestJson cs

end

/-- The `metadata` rest-object of the handler's destructuring
`const { nodes, globalVars, ...metadata } = file`: every field of the
design except `nodes` and `globalVars`. -/
def metaJson (file : SimplifiedDesign) : Json :=
  Json.obj [("name", Json.str file.name), ("lastModified", Json.str file.lastModified)]

/-- JSON encoding of the globalVars table snapshot. -/
def gvJson (file : SimplifiedDesign) : Json :=
  Json.obj (file.globalVars.map (fun e => (varIdStr e.1, styleJson e.2)))

/-- Result assembly of the `get_figma_data` handler (src/unnamed/part_001
lines 85-91): each node is stringified separately, the node strings are
joined with a comma inside brackets, and the result string is the
three-key template
`{ "metadata": M, "nodes": N, "globalVars": G }`. -/
def getFigmaDataResultJson (file : SimplifiedDesign) : String :=
  let nodesJson := "[" ++ joinComma (file.nodes.map (fun n => jsonStr (nodeJson n))) ++ "]"
  let metadataJson := jsonStr (metaJson file)
  let globalVarsJson := jsonStr (gvJson file)
  "\x7b \"metadata\": " ++ metadataJson ++ ", \"nodes\": " ++ nodesJson
    ++ ", \"globalVars\": " ++ globalVarsJson ++ " \x7d"

/-! ## Observables used by the stated properties -/

mutual

/-- Every styleRef of the node and of all its descendants is one of the
listed varIds. -/
def nodeRefsOK (ks : List Nat) : SimplifiedNode → Bool
  | SimplifiedNode.node _ _ _ _ refs cs => refs.all (fun v => ks.contains v) && forestRefsOK ks cs

/-- `nodeRefsOK` over an ordered list of nodes. -/
def forestRefsOK (ks : List Nat) : List SimplifiedNode → Bool
  | [] => true
  | c :: cs => nodeRefsOK ks c && forestRefsOK ks cs

end

mutual

/-- The node fits within a depth budget: with budget 0 it has no
children, with budget d+1 every child fits within budget d.  Thus no
descendant lies more than the budget's number of edges below the node. -/
def nodeDepthLE : SimplifiedNode → Nat → Bool
  | SimplifiedNode.node _ _ _ _ _ cs, 0 => cs.isEmpty
  | SimplifiedNode.node _ _ _ _ _ cs, d + 1 => forestDepthLE cs d

/-- `nodeDepthLE` over an ordered list of nodes. -/
def forestDepthLE : List SimplifiedNode → Nat → Bool
  | [], _ => true
  | c :: cs, d => nodeDepthLE c d && forestDepthLE cs d

end

/-- Well-formedness of a GlobalVariableTable, maintained by every run:
all allocated ids are below the counter, no two entries share a varId,
and no two entries share a content. -/
structure TableWF (t : GlobalVariableTable) : Prop where
  idLt : ∀ e ∈ t.entries, e.1 < t.nextId
  idInj : ∀ e ∈ t.entries, ∀ e2 ∈ t.entries, e.1 = e2.1 → e = e2
  contentInj : ∀ e ∈ t.entries, ∀ e2 ∈ t.entries, e.2 = e2.2 → e = e2

/-- A raw payload with the given id and type tag and no other properties
(concrete-instance helper). -/
def mkProps (i ty : String) : RawProps :=
  { id := some i
    type := some ty
    name := "n"
    fills := []
    strokes := []
    strokeWeight := none
    cornerRadius := none
    opacityPct := none
    layoutMode := none
    paddingPx := none
    itemSpacing := none
    characters := none
    fontFamily := none
    fontSize := none
    fontWeight := none
    lineHeightPct := none }

/-- A raw payload carrying one solid fill (concrete-instance helper). -/
def mkFillProps (i ty : String) (red green blue : Nat) : RawProps :=
  { mkProps i ty with fills := [⟨red, green, blue, 100, none⟩] }

/-! ## Theorems -/

/-! ### List helpers for the regex characterization -/

theorem takeWhile_append_all {p : Char → Bool} :
    ∀ (a x : List Char), (∀ c ∈ a, p c = true) →
      (a ++ x).takeWhile p = a ++ x.takeWhile p
  | [], x, _ => by simp
  | c :: a, x, h => by
      have hc : p c = true := h c (by simp)
      simp only [List.cons_append, List.takeWhile_cons, hc]
      simp [takeWhile_append_all a x (fun d hd => h d (by simp [hd]))]

theorem dropWhile_append_all {p : Char → Bool} :
    ∀ (a x : List Char), (∀ c ∈ a, p c = true) →
      (a ++ x).dropWhile p = x.dropWhile p
  | [], x, _ => by simp
  | c :: a, x, h => by
      have hc : p c = true := h c (by simp)
      simp only [List.cons_append, List.dropWhile_cons, hc]
      simp [dropWhile_append_all a x (fun d hd => h d (by simp [hd]))]

theorem takeWhile_prefix_ext {p : Char → Bool} :
    ∀ (b t l : List Char), b ++ t = l → (∀ c ∈ b, p c = true) →
      ∃ u, b ++ u = l.takeWhile p
  | [], t, l, _, _ => ⟨l.takeWhile p, by simp⟩
  | c :: b, t, l, habs, h => by
      have hc : p c = true := h c (by simp)
      subst habs
      simp only [List.cons_append, List.takeWhile_cons, hc]
      obtain ⟨u, hu⟩ :=
        takeWhile_prefix_ext b t (b ++ t) rfl (fun d hd => h d (by simp [hd]))
      exact ⟨u, by simp [hu]⟩

theorem matchKeyAt_sound {l k : List Char} (h : matchKeyAt l = some k) :
    keyShape k ∧ (∃ r2, l = k ++ r2) ∧
      (∀ s q, s ++ q = l → keyShape s → ∃ u, s ++ u = k) := by
  simp only [matchKeyAt] at h
  split at h
  · simp at h
  · rename_i he
    split at h
    · rename_i r hd
      split at h
      · simp at h
      · rename_i hds
        rw [Option.some.injEq] at h
        have husl : l.takeWhile upperAZ ++ '-' :: r = l := by
          conv_rhs => rw [← List.takeWhile_append_dropWhile upperAZ l]
          rw [hd]
        have husne : l.takeWhile upperAZ ≠ [] := by
          simpa [List.isEmpty_iff] using he
        have hdsne : r.takeWhile digit09 ≠ [] := by
          simpa [List.isEmpty_iff] using hds
        have hrsplit : r.takeWhile digit09 ++ r.dropWhile digit09 = r :=
          List.takeWhile_append_dropWhile digit09 r
        have hkshape : keyShape k := by
          refine ⟨l.takeWhile upperAZ, r.takeWhile digit09, h.symm, husne, ?_, hdsne, ?_⟩
          · exact fun d hdm => List.mem_takeWhile_imp hdm
          · exact fun d hdm => List.mem_takeWhile_imp hdm
        refine ⟨hkshape, ⟨r.dropWhile digit09, ?_⟩, ?_⟩
        · rw [← h]
          conv_lhs => rw [← husl]
          conv_lhs => rw [← hrsplit]
          simp
        · rintro s q hsq ⟨a, b, rfl, hane, haup, hbne, hbdig⟩
          have hsq2 : a ++ '-' :: (b ++ q) = l := by
            rw [← hsq]; simp
          obtain ⟨u, hu⟩ := takeWhile_prefix_ext a ('-' :: (b ++ q)) l hsq2 haup
          have hueq : u = [] := by
            cases u with
            | nil => rfl
            | cons uc u2 =>
                exfalso
                have hucmem : uc ∈ l.takeWhile upperAZ := by
                  rw [← hu]; simp
                have hup : upperAZ uc = true := List.mem_takeWhile_imp hucmem
                have hstep : uc :: (u2 ++ '-' :: r) = '-' :: (b ++ q) := by
                  have h1 : (a ++ uc :: u2) ++ '-' :: r = a ++ '-' :: (b ++ q) := by
                    rw [hu, husl, hsq2]
                  exact List.append_cancel_left
                    (by simpa using h1 : a ++ uc :: (u2 ++ '-' :: r) = a ++ '-' :: (b ++ q))
                have huc : uc = '-' := by injection hstep
                rw [huc] at hup
                exact absurd hup (by decide)
          subst hueq
          have haus : a = l.takeWhile upperAZ := by simpa using hu
          have hr : b ++ q = r := by
            have h1 : a ++ '-' :: (b ++ q) = a ++ '-' :: r := by
              rw [hsq2, haus, husl]
            have h2 := List.append_cancel_left h1
            injection h2
          obtain ⟨u2, hu2⟩ := takeWhile_prefix_ext b q r hr hbdig
          refine ⟨u2, ?_⟩
          rw [← h, ← haus, ← hu2]
          simp
    · simp at h

theorem matchKeyAt_complete {s : List Char} (q : List Char) (hs : keyShape s) :
    ∃ k, matchKeyAt (s ++ q) = some k := by
  obtain ⟨a, b, rfl, hane, haup, hbne, hbdig⟩ := hs
  have hl : (a ++ '-' :: b) ++ q = a ++ '-' :: (b ++ q) := by simp
  rw [hl]
  have htw : (a ++ '-' :: (b ++ q)).takeWhile upperAZ = a := by
    rw [takeWhile_append_all a ('-' :: (b ++ q)) haup]
    rw [List.takeWhile_cons]
    simp [upperAZ]
  have hdw : (a ++ '-' :: (b ++ q)).dropWhile upperAZ = '-' :: (b ++ q) := by
    rw [dropWhile_append_all a ('-' :: (b ++ q)) haup]
    rw [List.dropWhile_cons]
    simp [upperAZ]
  have hds : (b ++ q).takeWhile digit09 = b ++ q.takeWhile digit09 :=
    takeWhile_append_all b q hbdig
  refine ⟨a ++ '-' :: (b ++ q.takeWhile digit09), ?_⟩
  simp only [matchKeyAt, htw, hdw, hds]
  have hane2 : a.isEmpty = false := by
    cases a with
    | nil => exact absurd rfl hane
    | cons x xs => rfl
  have hbne2 : (b ++ q.takeWhile digit09).isEmpty = false := by
    cases b with
    | nil => exact absurd rfl hbne
    | cons x xs => rfl
  simp [hane2, hbne2]

theorem browse_prefix_iff {url : List Char} :
    url.take 8 = browseLit ↔ ∃ x, url = browseLit ++ x := by
  constructor
  · intro h
    refine ⟨url.drop 8, ?_⟩
    conv_lhs => rw [← List.take_append_drop 8 url]
    rw [h]
  · rintro ⟨x, rfl⟩
    exact List.take_left browseLit x

theorem browse_drop {x : List Char} : (browseLit ++ x).drop 8 = x :=
  List.drop_left browseLit x

theorem findBrowseKey_some : ∀ (url k : List Char), findBrowseKey url = some k →
    keyShape k ∧ ∃ p q, url = p ++ browseLit ++ k ++ q ∧
      (∀ p2 s2 q2, url = p2 ++ browseLit ++ s2 ++ q2 → keyShape s2 → p.length ≤ p2.length) ∧
      (∀ s2 q2, url = p ++ browseLit ++ s2 ++ q2 → keyShape s2 → ∃ u, s2 ++ u = k)
  | [], k, h => by simp [findBrowseKey] at h
  | c :: rest, k, h => by
      rw [findBrowseKey] at h
      by_cases hc : (c :: rest).take 8 = browseLit
      · rw [if_pos hc] at h
        obtain ⟨x, hurl⟩ := browse_prefix_iff.mp hc
        cases hm : matchKeyAt ((c :: rest).drop 8) with
        | some k0 =>
            rw [hm] at h
            rw [Option.some.injEq] at h
            subst h
            have hdropx : (c :: rest).drop 8 = x := by rw [hurl]; exact browse_drop
            rw [hdropx] at hm
            obtain ⟨hk, ⟨r2, hxdec⟩, hmax⟩ := matchKeyAt_sound hm
            refine ⟨hk, [], r2, ?_, ?_, ?_⟩
            · rw [hurl, hxdec]; simp
            · intro p2 s2 q2 _ _; simp
            · intro s2 q2 hdec2 hs2
              apply hmax s2 q2 ?_ hs2
              have h1 : browseLit ++ x = browseLit ++ (s2 ++ q2) := by
                rw [← hurl, hdec2]; simp
              exact (List.append_cancel_left h1).symm
        | none =>
            rw [hm] at h
            obtain ⟨hk, p2, q2, hdec, hleft, hmax⟩ := findBrowseKey_some rest k h
            refine ⟨hk, c :: p2, q2, by simp [hdec], ?_, ?_⟩
            · intro p3 s3 q3 hdec3 hs3
              cases p3 with
              | nil =>
                  exfalso
                  have hx : x = s3 ++ q3 := by
                    have h1 : browseLit ++ x = browseLit ++ (s3 ++ q3) := by
                      rw [← hurl]
                      rw [hdec3]; simp
                    exact List.append_cancel_left h1
                  have hdropx : (c :: rest).drop 8 = x := by rw [hurl]; exact browse_drop
                  obtain ⟨k2, hk2⟩ := matchKeyAt_complete q3 hs3
                  rw [hdropx, hx, hk2] at hm
                  cases hm
              | cons c3 p4 =>
                  have hrest : rest = p4 ++ browseLit ++ s3 ++ q3 := by
                    have := hdec3
                    simp only [List.cons_append] at this
                    injection this with h1 h2
                  have := hleft p4 s3 q3 hrest hs3
                  simpa [Nat.succ_le_succ_iff] using this
            · intro s3 q3 hdec3 hs3
              apply hmax s3 q3 ?_ hs3
              have := hdec3
              simp only [List.cons_append] at this
              injection this with h1 h2
      · rw [if_neg hc] at h
        obtain ⟨hk, p2, q2, hdec, hleft, hmax⟩ := findBrowseKey_some rest k h
        refine ⟨hk, c :: p2, q2, by simp [hdec], ?_, ?_⟩
        · intro p3 s3 q3 hdec3 hs3
          cases p3 with
          | nil =>
              exfalso
              apply hc
              apply browse_prefix_iff.mpr
              exact ⟨s3 ++ q3, by rw [hdec3]; simp⟩
          | cons c3 p4 =>
              have hrest : rest = p4 ++ browseLit ++ s3 ++ q3 := by
                have := hdec3
                simp only [List.cons_append] at this
                injection this with h1 h2
              have := hleft p4 s3 q3 hrest hs3
              simpa [Nat.succ_le_succ_iff] using this
        · intro s3 q3 hdec3 hs3
          apply hmax s3 q3 ?_ hs3
          have := hdec3
          simp only [List.cons_append] at this
          injection this with h1 h2

theorem findBrowseKey_none : ∀ (url : List Char), findBrowseKey url = none →
    ∀ s, keyShape s → ¬ afterBrowse url s
  | [], _, s, _, ⟨p, q, habs⟩ => by
      have := congrArg List.length habs
      simp [browseLit] at this
      omega
  | c :: rest, h, s, hs, ⟨p, q, habs⟩ => by
      rw [findBrowseKey] at h
      by_cases hc : (c :: rest).take 8 = browseLit
      · rw [if_pos hc] at h
        cases hm : matchKeyAt ((c :: rest).drop 8) with
        | some k0 => rw [hm] at h; cases h
        | none =>
            rw [hm] at h
            cases p with
            | nil =>
                obtain ⟨x, hurl⟩ := browse_prefix_iff.mp hc
                have hx : x = s ++ q := by
                  have h1 : browseLit ++ x = browseLit ++ (s ++ q) := by
                    rw [← hurl, habs]; simp
                  exact List.append_cancel_left h1
                have hdropx : (c :: rest).drop 8 = x := by rw [hurl]; exact browse_drop
                obtain ⟨k2, hk2⟩ := matchKeyAt_complete q hs
                rw [hdropx, hx, hk2] at hm
                cases hm
            | cons c3 p4 =>
                have hrest : rest = p4 ++ browseLit ++ s ++ q := by
                  have := habs
                  simp only [List.cons_append] at this
                  injection this with h1 h2
                exact findBrowseKey_none rest h s hs ⟨p4, q, hrest⟩
      · rw [if_neg hc] at h
        cases p with
        | nil =>
            apply hc
            apply browse_prefix_iff.mpr
            exact ⟨s ++ q, by rw [habs]; simp⟩
        | cons c3 p4 =>
            have hrest : rest = p4 ++ browseLit ++ s ++ q := by
              have := habs
              simp only [List.cons_append] at this
              injection this with h1 h2
            exact findBrowseKey_none rest h s hs ⟨p4, q, hrest⟩

theorem keyShape_ne_nil {s : List Char} (hs : keyShape s) : s ≠ [] := by
  obtain ⟨a, b, rfl, hane, -, -, -⟩ := hs
  cases a with
  | nil => exact absurd rfl hane
  | cons x xs => simp

theorem afterBrowse_nil {s : List Char} : ¬ afterBrowse [] s := by
  rintro ⟨p, q, habs⟩
  have := congrArg List.length habs
  simp [browseLit] at this
  omega

/-- C10: for every url, `JiraService.extractIssueKey` returns the first
substring of the form uppercase-letters, hyphen, digits that immediately
follows `/browse/` (leftmost occurrence; at that occurrence every
key-shaped candidate is a prefix of the returned, greedily maximal one),
and returns null exactly when the url contains no such substring. -/
theorem extractIssueKey_characterization (url : List Char) :
    (JiraService.extractIssueKey url = none ↔ ¬∃ s, keyShape s ∧ afterBrowse url s) ∧
    (∀ k, JiraService.extractIssueKey url = some k →
      keyShape k ∧ ∃ p q, url = p ++ browseLit ++ k ++ q ∧
        (∀ p2 s2 q2, url = p2 ++ browseLit ++ s2 ++ q2 → keyShape s2 → p.length ≤ p2.length) ∧
        (∀ s2 q2, url = p ++ browseLit ++ s2 ++ q2 → keyShape s2 → ∃ u, s2 ++ u = k)) := by
  constructor
  · constructor
    · rintro h ⟨s, hs, hab⟩
      exact findBrowseKey_none url h s hs hab
    · intro hno
      cases hk : JiraService.extractIssueKey url with
      | none => rfl
      | some k =>
          exfalso
          obtain ⟨hksh, p, q, hdec, -, -⟩ := findBrowseKey_some url k hk
          exact hno ⟨k, hksh, p, q, hdec⟩
  · intro k hk
    exact findBrowseKey_some url k hk

/-- Closed instance of `extractIssueKey_characterization` at the concrete
url `x/browse/AB-12!`, whose extracted key is `AB-12`. -/
theorem extractIssueKey_characterization_witness :
    keyShape ['A', 'B', '-', '1', '2'] ∧
      ∃ p q, ['x', '/', 'b', 'r', 'o', 'w', 's', 'e', '/', 'A', 'B', '-', '1', '2', '!']
            = p ++ browseLit ++ ['A', 'B', '-', '1', '2'] ++ q ∧
        (∀ p2 s2 q2,
            ['x', '/', 'b', 'r', 'o', 'w', 's', 'e', '/', 'A', 'B', '-', '1', '2', '!']
              = p2 ++ browseLit ++ s2 ++ q2 → keyShape s2 → p.length ≤ p2.length) ∧
        (∀ s2 q2,
            ['x', '/', 'b', 'r', 'o', 'w', 's', 'e', '/', 'A', 'B', '-', '1', '2', '!']
              = p ++ browseLit ++ s2 ++ q2 → keyShape s2 →
            ∃ u, s2 ++ u = ['A', 'B', '-', '1', '2']) :=
  (extractIssueKey_characterization
      ['x', '/', 'b', 'r', 'o', 'w', 's', 'e', '/', 'A', 'B', '-', '1', '2', '!']).2
    ['A', 'B', '-', '1', '2'] (by decide)

theorem truthy_none : truthy none = false := rfl

theorem truthy_some (l : List Char) : truthy (some l) = !l.isEmpty := rfl

theorem truthy_false_iff (o : Option (List Char)) :
    truthy o = false ↔ (o = none ∨ o = some []) := by
  cases o with
  | none => simp [truthy]
  | some l =>
      cases l with
      | nil => simp [truthy]
      | cons c lt => simp [truthy]

/-- C9: the `get_jira_issue` handler produces the error result (and never
reaches the Jira fetch) exactly when the issueKey argument is absent or
empty and the issueUrl argument is absent or contains no substring of the
form uppercase-letters, hyphen, digits after `/browse/`; otherwise the
key it proceeds to fetch is the supplied issueKey when that is truthy,
and the key extracted from the url otherwise. -/
theorem getJiraIssue_error_characterization (issueKey issueUrl : Option (List Char)) :
    (getJiraIssueResolvedKey issueKey issueUrl = none ↔
      ((issueKey = none ∨ issueKey = some []) ∧
        (issueUrl = none ∨ ∀ s, keyShape s → ¬ afterBrowse (issueUrl.getD []) s))) ∧
    (∀ k, getJiraIssueResolvedKey issueKey issueUrl = some k →
      (truthy issueKey = true ∧ issueKey = some k) ∨
      (truthy issueKey = false ∧
        JiraService.extractIssueKey (issueUrl.getD []) = some k)) := by
  by_cases htk : truthy issueKey = true
  · have hkform : ∃ c lt, issueKey = some (c :: lt) := by
      cases issueKey with
      | none => simp [truthy] at htk
      | some l =>
          cases l with
          | nil => simp [truthy] at htk
          | cons c lt => exact ⟨c, lt, rfl⟩
    obtain ⟨c, lt, rfl⟩ := hkform
    have hres : getJiraIssueResolvedKey (some (c :: lt)) issueUrl = some (c :: lt) := by
      simp [getJiraIssueResolvedKey, truthy_some]
    constructor
    · rw [hres]
      constructor
      · intro habs; cases habs
      · rintro ⟨h1 | h1, -⟩ <;> cases h1
    · intro k hk
      rw [hres] at hk
      exact Or.inl ⟨htk, hk⟩
  · have htk2 : truthy issueKey = false := by simpa using htk
    have hfirst : issueKey = none ∨ issueKey = some [] := (truthy_false_iff issueKey).mp htk2
    cases issueUrl with
    | none =>
        have hres : getJiraIssueResolvedKey issueKey none = none := by
          simp [getJiraIssueResolvedKey, truthy_none, htk2]
        refine ⟨⟨fun _ => ⟨hfirst, Or.inl rfl⟩, fun _ => hres⟩, ?_⟩
        intro k hk
        rw [hres] at hk
        cases hk
    | some u =>
        cases u with
        | nil =>
            have hres : getJiraIssueResolvedKey issueKey (some []) = none := by
              simp [getJiraIssueResolvedKey, truthy_some, htk2]
            refine ⟨⟨fun _ => ⟨hfirst, Or.inr fun s hs hab => afterBrowse_nil hab⟩,
              fun _ => hres⟩, ?_⟩
            intro k hk
            rw [hres] at hk
            cases hk
        | cons uc ut =>
            cases he : findBrowseKey (uc :: ut) with
            | some k0 =>
                obtain ⟨hksh, p, q, hdec, -, -⟩ := findBrowseKey_some (uc :: ut) k0 he
                have hk0ne : k0.isEmpty = false := by
                  cases k0 with
                  | nil => exact absurd rfl (keyShape_ne_nil hksh)
                  | cons x xs => rfl
                have hres : getJiraIssueResolvedKey issueKey (some (uc :: ut)) = some k0 := by
                  simp [getJiraIssueResolvedKey, truthy_some, htk2, JiraService.extractIssueKey,
                    he, hk0ne]
                constructor
                · rw [hres]
                  constructor
                  · intro habs; cases habs
                  · rintro ⟨-, h2 | h2⟩
                    · cases h2
                    · exact absurd ⟨p, q, hdec⟩ (h2 k0 hksh)
                · intro k hk
                  rw [hres] at hk
                  injection hk with hkk
                  right
                  refine ⟨htk2, ?_⟩
                  simp [JiraService.extractIssueKey, he, hkk]
            | none =>
                have hres : getJiraIssueResolvedKey issueKey (some (uc :: ut)) = none := by
                  simp [getJiraIssueResolvedKey, truthy_some, htk2, JiraService.extractIssueKey,
                    he]
                refine ⟨⟨fun _ => ⟨hfirst,
                  Or.inr fun s hs hab => findBrowseKey_none (uc :: ut) he s hs hab⟩,
                  fun _ => hres⟩, ?_⟩
                intro k hk
                rw [hres] at hk
                cases hk

/-- Closed instance of `getJiraIssue_error_characterization`: with
issueKey `PR-7` supplied and no url, the handler proceeds with `PR-7`. -/
theorem getJiraIssue_error_characterization_witness :
    (truthy (some ['P', 'R', '-', '7']) = true ∧
      (some ['P', 'R', '-', '7'] : Option (List Char)) = some ['P', 'R', '-', '7']) ∨
    (truthy (some ['P', 'R', '-', '7']) = false ∧
      JiraService.extractIssueKey ((none : Option (List Char)).getD [])
        = some ['P', 'R', '-', '7']) :=
  (getJiraIssue_error_characterization (some ['P', 'R', '-', '7']) none).2
    ['P', 'R', '-', '7'] (by decide)

/-- C8 counterexample: a supplied-but-empty nodeId is routed to `getFile`,
not to `getNode`, because the handler tests JS truthiness of the string. -/
theorem getFigmaDataFetch_empty_nodeId :
    getFigmaDataFetch "key" (some "") (some 2) = FigmaFetchCall.getFile "key" (some 2) ∧
    FigmaFetchCall.getFile "key" (some 2) ≠ FigmaFetchCall.getNode "key" "" (some 2) := by
  exact ⟨rfl, by decide⟩

/-- C8 (amended): a supplied non-empty nodeId roots the conversion at that
node via `getNode`; an absent or empty nodeId converts the whole file via
`getFile`; the optional depth is passed through unchanged in both cases. -/
theorem getFigmaDataFetch_dispatch (fileKey : String) (nodeId : Option String)
    (depth : Option Nat) :
    (∀ s, nodeId = some s → s ≠ "" →
      getFigmaDataFetch fileKey nodeId depth = FigmaFetchCall.getNode fileKey s depth) ∧
    ((nodeId = none ∨ nodeId = some "") →
      getFigmaDataFetch fileKey nodeId depth = FigmaFetchCall.getFile fileKey depth) := by
  constructor
  · rintro s rfl hne
    simp [getFigmaDataFetch, truthyS, hne]
  · rintro (rfl | rfl) <;> simp [getFigmaDataFetch, truthyS]

/-- Closed instance of `getFigmaDataFetch_dispatch` at a non-empty nodeId
and at an absent nodeId. -/
theorem getFigmaDataFetch_dispatch_witness :
    getFigmaDataFetch "key" (some "1:2") (some 2)
        = FigmaFetchCall.getNode "key" "1:2" (some 2) ∧
    getFigmaDataFetch "key" none none = FigmaFetchCall.getFile "key" none :=
  ⟨(getFigmaDataFetch_dispatch "key" (some "1:2") (some 2)).1 "1:2" rfl (by decide),
   (getFigmaDataFetch_dispatch "key" none none).2 (Or.inl rfl)⟩

/-- C2: the conversion is deterministic — its output is independent of the
ambient server state (each call owns a fresh GlobalVariableTable), and
converting the same raw tree twice, in any states or back to back, yields
equal SimplifiedDesign values (identical varId assignments included) and
hence byte-identical serialized results. -/
theorem conversion_deterministic (s1 s2 : ServerState) (name lastModified : String)
    (roots : List RawNode) (maxDepth : Option Nat) :
    (runConversion s1 name lastModified roots maxDepth).1
        = (runConversion s2 name lastModified roots maxDepth).1 ∧
    (runConversion (runConversion s1 name lastModified roots maxDepth).2
        name lastModified roots maxDepth).1
        = (runConversion s1 name lastModified roots maxDepth).1 ∧
    getFigmaDataResultJson
        (runConversion (runConversion s1 name lastModified roots maxDepth).2
          name lastModified roots maxDepth).1
        = getFigmaDataResultJson (runConversion s1 name lastModified roots maxDepth).1 :=
  ⟨rfl, rfl, rfl⟩

theorem jsonArrStr_eq_joinComma : ∀ es : List Json,
    jsonArrStr es = joinComma (es.map jsonStr)
  | [] => rfl
  | [e] => rfl
  | e :: e2 :: rest => by
      simp only [List.map_cons]
      rw [jsonArrStr, joinComma, jsonArrStr_eq_joinComma (e2 :: rest)]
      simp only [List.map_cons]

/-- C7: the handler's spliced result string is exactly the serialization
of one JSON object with the three top-level keys metadata, nodes and
globalVars, where the nodes array element strings are produced by mapping
the serializer over the nodes one at a time (each node serialized as a
standalone value, never the whole array in one pass). -/
theorem getFigmaData_output_shape (file : SimplifiedDesign) :
    getFigmaDataResultJson file
        = jsonStr (Json.obj [("metadata", metaJson file),
            ("nodes", Json.arr (file.nodes.map nodeJson)),
            ("globalVars", gvJson file)]) ∧
    jsonTopKeys (Json.obj [("metadata", metaJson file),
        ("nodes", Json.arr (file.nodes.map nodeJson)),
        ("globalVars", gvJson file)]) = ["metadata", "nodes", "globalVars"] := by
  constructor
  · rw [getFigmaDataResultJson]
    rw [jsonStr, jsonObjStr, jsonObjStr, jsonObjStr]
    rw [jsonStr, jsonArrStr_eq_joinComma]
    rw [List.map_map]
    simp only [String.append_assoc]
    rfl
  · rfl

/-! ### GlobalVariableTable lemmas -/

theorem find?_append_of_all_false {α : Type} {p : α → Bool} :
    ∀ {l1 l2 : List α}, (∀ x ∈ l1, p x = false) → (l1 ++ l2).find? p = l2.find? p
  | [], _, _ => rfl
  | x :: l1, l2, h => by
      have hx : p x = false := h x (by simp)
      simp only [List.cons_append, List.find?_cons, hx]
      exact find?_append_of_all_false fun d hd => h d (by simp [hd])

theorem intern_pair_mem (t : GlobalVariableTable) (r : StyleRecord) :
    ((intern t r).1, r) ∈ (intern t r).2.entries := by
  unfold intern
  cases hf : t.entries.find? (fun e => decide (e.2 = r)) with
  | some e =>
      have hp0 := List.find?_some hf
      have hp : e.2 = r := of_decide_eq_true hp0
      have hm : e ∈ t.entries := List.mem_of_find?_eq_some hf
      simpa [← hp] using hm
  | none => simp

theorem intern_entries_sub {t : GlobalVariableTable} (r : StyleRecord)
    {e : Nat × StyleRecord} (he : e ∈ t.entries) : e ∈ (intern t r).2.entries := by
  unfold intern
  cases hf : t.entries.find? (fun x => decide (x.2 = r)) with
  | some x => simpa using he
  | none => simp [he]

theorem intern_keys_sub {t : GlobalVariableTable} (r : StyleRecord)
    {k : Nat} (hk : k ∈ t.keys) : k ∈ (intern t r).2.keys := by
  obtain ⟨e, he, rfl⟩ := List.mem_map.mp hk
  exact List.mem_map.mpr ⟨e, intern_entries_sub r he, rfl⟩

theorem intern_key_self (t : GlobalVariableTable) (r : StyleRecord) :
    (intern t r).1 ∈ (intern t r).2.keys :=
  List.mem_map.mpr ⟨((intern t r).1, r), intern_pair_mem t r, rfl⟩

theorem tableWF_empty : TableWF GlobalVariableTable.empty := by
  constructor <;> intro e he <;> simp [GlobalVariableTable.empty] at he

theorem intern_wf {t : GlobalVariableTable} (h : TableWF t) (r : StyleRecord) :
    TableWF (intern t r).2 := by
  unfold intern
  cases hf : t.entries.find? (fun x => decide (x.2 = r)) with
  | some x => simpa using h
  | none =>
      have hnone : ∀ x ∈ t.entries, ¬ x.2 = r := by
        intro x hx
        have := List.find?_eq_none.mp hf x hx
        simpa using this
      constructor
      · intro e he
        simp only [List.mem_append, List.mem_singleton] at he
        rcases he with he | he
        · exact Nat.lt_succ_of_lt (h.idLt e he)
        · simp [he]
      · intro e he e2 he2 heq
        simp only [List.mem_append, List.mem_singleton] at he he2
        rcases he with he | he <;> rcases he2 with he2 | he2
        · exact h.idInj e he e2 he2 heq
        · exfalso
          have := h.idLt e he
          rw [heq, he2] at this
          simp at this
        · exfalso
          have := h.idLt e2 he2
          rw [← heq, he] at this
          simp at this
        · rw [he, he2]
      · intro e he e2 he2 heq
        simp only [List.mem_append, List.mem_singleton] at he he2
        rcases he with he | he <;> rcases he2 with he2 | he2
        · exact h.contentInj e he e2 he2 heq
        · exfalso
          apply hnone e he
          rw [heq, he2]
        · exfalso
          apply hnone e2 he2
          rw [← heq, he]
        · rw [he, he2]

theorem intern_stable {t : GlobalVariableTable} (h : TableWF t) {v : Nat} {r : StyleRecord}
    (hm : (v, r) ∈ t.entries) : intern t r = (v, t) := by
  unfold intern
  cases hf : t.entries.find? (fun x => decide (x.2 = r)) with
  | some x =>
      have hp0 := List.find?_some hf
      have hp : x.2 = r := of_decide_eq_true hp0
      have hx : x ∈ t.entries := List.mem_of_find?_eq_some hf
      have : x = (v, r) := h.contentInj x hx (v, r) hm (by simp [hp])
      rw [this]
  | none =>
      exfalso
      have := List.find?_eq_none.mp hf (v, r) hm
      simp at this

mutual

theorem buildNode_wf : ∀ (r : RawNode) (d : Option Nat) (t : GlobalVariableTable),
    TableWF t → TableWF (buildNode r d t).2
  | RawNode.node p cs, d, t, h => by
      simp only [buildNode]
      split
      · split
        · split
          · exact intern_wf h _
          · exact buildChildren_wf cs (some _) _ (intern_wf h _)
          · exact buildChildren_wf cs none _ (intern_wf h _)
        · split
          · exact h
          · exact buildChildren_wf cs (some _) _ h
          · exact buildChildren_wf cs none _ h
      · exact h

theorem buildChildren_wf : ∀ (l : List RawNode) (d : Option Nat) (t : GlobalVariableTable),
    TableWF t → TableWF (buildChildren l d t).2
  | [], _, _, h => h
  | c :: cs, d, t, h => by
      have h1 := buildNode_wf c d t h
      have h2 := buildChildren_wf cs d (buildNode c d t).2 h1
      simp only [buildChildren]
      exact h2

end

mutual

theorem buildNode_keys_sub : ∀ (r : RawNode) (d : Option Nat) (t : GlobalVariableTable)
    (k : Nat), k ∈ t.keys → k ∈ (buildNode r d t).2.keys
  | RawNode.node p cs, d, t, k, hk => by
      simp only [buildNode]
      split
      · split
        · split
          · exact intern_keys_sub _ hk
          · exact buildChildren_keys_sub cs (some _) _ k (intern_keys_sub _ hk)
          · exact buildChildren_keys_sub cs none _ k (intern_keys_sub _ hk)
        · split
          · exact hk
          · exact buildChildren_keys_sub cs (some _) _ k hk
          · exact buildChildren_keys_sub cs none _ k hk
      · exact hk

theorem buildChildren_keys_sub : ∀ (l : List RawNode) (d : Option Nat)
    (t : GlobalVariableTable) (k : Nat), k ∈ t.keys → k ∈ (buildChildren l d t).2.keys
  | [], _, _, _, hk => hk
  | c :: cs, d, t, k, hk => by
      have h1 := buildNode_keys_sub c d t k hk
      have h2 := buildChildren_keys_sub cs d (buildNode c d t).2 k h1
      simp only [buildChildren]
      exact h2

end

/-- Entries of a well-formed table are keyed injectively by content and by
varId simultaneously: two entries agree on content exactly when they agree
on varId. -/
theorem tableWF_entry_iff {t : GlobalVariableTable} (h : TableWF t)
    {e e2 : Nat × StyleRecord} (he : e ∈ t.entries) (he2 : e2 ∈ t.entries) :
    e.2 = e2.2 ↔ e.1 = e2.1 := by
  constructor
  · intro hc
    rw [h.contentInj e he e2 he2 hc]
  · intro hi
    rw [h.idInj e he e2 he2 hi]

/-- C1: intern deduplicates by canonical content — a second intern of
content-equal records returns the same varId and leaves the table
untouched, interning a differing content returns a distinct varId; and in
any completed conversion two globalVars entries share content exactly
when they share a varId. -/
theorem intern_dedup (t : GlobalVariableTable) (h : TableWF t) (r1 r2 : StyleRecord) :
    ((r1 = r2 → intern (intern t r1).2 r2 = ((intern t r1).1, (intern t r1).2)) ∧
     (r1 ≠ r2 → (intern (intern t r1).2 r2).1 ≠ (intern t r1).1)) ∧
    (∀ (name lastModified : String) (roots : List RawNode) (maxDepth : Option Nat),
      ∀ e ∈ (parseDesign name lastModified roots maxDepth).globalVars,
        ∀ e2 ∈ (parseDesign name lastModified roots maxDepth).globalVars,
          (e.2 = e2.2 ↔ e.1 = e2.1)) := by
  refine ⟨⟨?_, ?_⟩, ?_⟩
  · rintro rfl
    exact intern_stable (intern_wf h r1) (intern_pair_mem t r1)
  · intro hne heq
    have h2 : TableWF (intern (intern t r1).2 r2).2 := intern_wf (intern_wf h r1) r2
    have hm1 : ((intern t r1).1, r1) ∈ (intern (intern t r1).2 r2).2.entries :=
      intern_entries_sub r2 (intern_pair_mem t r1)
    have hm2 : ((intern (intern t r1).2 r2).1, r2) ∈ (intern (intern t r1).2 r2).2.entries :=
      intern_pair_mem (intern t r1).2 r2
    have := h2.idInj _ hm2 _ hm1 heq
    apply hne
    have hr : r2 = r1 := congrArg Prod.snd this
    rw [hr]
  · intro name lastModified roots maxDepth e he e2 he2
    have hwf : TableWF (buildChildren roots maxDepth GlobalVariableTable.empty).2 :=
      buildChildren_wf roots maxDepth GlobalVariableTable.empty tableWF_empty
    exact tableWF_entry_iff hwf he he2

/-- Closed instance of `intern_dedup` at the empty table with an
all-default record and a record carrying one solid red fill. -/
theorem intern_dedup_witness :
    (intern (intern GlobalVariableTable.empty (extractStyle (mkProps "a" "RECTANGLE"))).2
        (extractStyle (mkProps "a" "RECTANGLE"))
      = ((intern GlobalVariableTable.empty (extractStyle (mkProps "a" "RECTANGLE"))).1,
         (intern GlobalVariableTable.empty (extractStyle (mkProps "a" "RECTANGLE"))).2)) ∧
    ((intern (intern GlobalVariableTable.empty (extractStyle (mkProps "a" "RECTANGLE"))).2
        (extractStyle (mkFillProps "b" "RECTANGLE" 255 0 0))).1
      ≠ (intern GlobalVariableTable.empty (extractStyle (mkProps "a" "RECTANGLE"))).1) :=
  ⟨((intern_dedup GlobalVariableTable.empty tableWF_empty
      (extractStyle (mkProps "a" "RECTANGLE")) (extractStyle (mkProps "a" "RECTANGLE"))).1).1 rfl,
   ((intern_dedup GlobalVariableTable.empty tableWF_empty
      (extractStyle (mkProps "a" "RECTANGLE"))
      (extractStyle (mkFillProps "b" "RECTANGLE" 255 0 0))).1).2 (by decide)⟩

mutual

theorem nodeRefsOK_mono : ∀ (s : SimplifiedNode) (ks ks2 : List Nat),
    (∀ x ∈ ks, x ∈ ks2) → nodeRefsOK ks s = true → nodeRefsOK ks2 s = true
  | SimplifiedNode.node i nm ty tx refs cs, ks, ks2, hsub, h => by
      simp only [nodeRefsOK, Bool.and_eq_true, List.all_eq_true] at h ⊢
      refine ⟨?_, forestRefsOK_mono cs ks ks2 hsub h.2⟩
      intro v hv
      have hm : v ∈ ks := by simpa using h.1 v hv
      simpa using hsub v hm

theorem forestRefsOK_mono : ∀ (l : List SimplifiedNode) (ks ks2 : List Nat),
    (∀ x ∈ ks, x ∈ ks2) → forestRefsOK ks l = true → forestRefsOK ks2 l = true
  | [], _, _, _, _ => rfl
  | c :: cs, ks, ks2, hsub, h => by
      simp only [forestRefsOK, Bool.and_eq_true] at h ⊢
      exact ⟨nodeRefsOK_mono c ks ks2 hsub h.1, forestRefsOK_mono cs ks ks2 hsub h.2⟩

end

mutual

theorem buildNode_refs_ok : ∀ (r : RawNode) (d : Option Nat) (t : GlobalVariableTable)
    (s : SimplifiedNode), (buildNode r d t).1 = some s →
    nodeRefsOK (buildNode r d t).2.keys s = true
  | RawNode.node p cs, d, t, s, hs => by
      cases hid : p.id with
      | none =>
          rw [buildNode] at hs
          simp [hid] at hs
      | some i =>
          cases hty : p.type with
          | none =>
              rw [buildNode] at hs
              simp [hid, hty] at hs
          | some ty =>
              rw [buildNode] at hs ⊢
              simp only [hid, hty] at hs ⊢
              by_cases hr : recognizedType ty = true
              · rw [if_pos hr] at hs ⊢
                cases d with
                | none =>
                    simp only [Option.some.injEq] at hs
                    subst hs
                    simp only [nodeRefsOK, Bool.and_eq_true, List.all_eq_true]
                    constructor
                    · intro v hv
                      simp only [List.mem_singleton] at hv
                      subst hv
                      have h1 := intern_key_self t (extractStyle p)
                      have h2 := buildChildren_keys_sub cs none _ _ h1
                      simpa using h2
                    · exact buildChildren_refs_ok cs none _
                | some dd =>
                    cases dd with
                    | zero =>
                        simp only [Option.some.injEq] at hs
                        subst hs
                        simp only [nodeRefsOK, Bool.and_eq_true, List.all_eq_true]
                        constructor
                        · intro v hv
                          simp only [List.mem_singleton] at hv
                          subst hv
                          simpa using intern_key_self t (extractStyle p)
                        · rfl
                    | succ k =>
                        simp only [Option.some.injEq] at hs
                        subst hs
                        simp only [nodeRefsOK, Bool.and_eq_true, List.all_eq_true]
                        constructor
                        · intro v hv
                          simp only [List.mem_singleton] at hv
                          subst hv
                          have h1 := intern_key_self t (extractStyle p)
                          have h2 := buildChildren_keys_sub cs (some k) _ _ h1
                          simpa using h2
                        · exact buildChildren_refs_ok cs (some k) _
              · rw [if_neg hr] at hs ⊢
                cases d with
                | none =>
                    simp only [Option.some.injEq] at hs
                    subst hs
                    simp only [nodeRefsOK, Bool.and_eq_true, List.all_eq_true]
                    exact ⟨by simp, buildChildren_refs_ok cs none t⟩
                | some dd =>
                    cases dd with
                    | zero =>
                        simp only [Option.some.injEq] at hs
                        subst hs
                        simp only [nodeRefsOK, Bool.and_eq_true, List.all_eq_true]
                        exact ⟨by simp, rfl⟩
                    | succ k =>
                        simp only [Option.some.injEq] at hs
                        subst hs
                        simp only [nodeRefsOK, Bool.and_eq_true, List.all_eq_true]
                        exact ⟨by simp, buildChildren_refs_ok cs (some k) t⟩

theorem buildChildren_refs_ok : ∀ (l : List RawNode) (d : Option Nat)
    (t : GlobalVariableTable),
    forestRefsOK (buildChildren l d t).2.keys (buildChildren l d t).1 = true
  | [], _, _ => rfl
  | c :: cs, d, t => by
      have hsub : ∀ x ∈ (buildNode c d t).2.keys,
          x ∈ (buildChildren cs d (buildNode c d t).2).2.keys :=
        fun x hx => buildChildren_keys_sub cs d _ x hx
      have htl := buildChildren_refs_ok cs d (buildNode c d t).2
      simp only [buildChildren]
      cases hhd : (buildNode c d t).1 with
      | none => exact htl
      | some s =>
          have hnode := nodeRefsOK_mono s _ _ hsub (buildNode_refs_ok c d t s hhd)
          simp only [forestRefsOK, Bool.and_eq_true]
          exact ⟨hnode, htl⟩

end

theorem forestRefsOK_mem : ∀ {ks : List Nat} {l : List SimplifiedNode},
    forestRefsOK ks l = true → ∀ n ∈ l, nodeRefsOK ks n = true
  | _, [], _, n, hn => by simp at hn
  | ks, c :: cs, h, n, hn => by
      simp only [forestRefsOK, Bool.and_eq_true] at h
      rcases List.mem_cons.mp hn with rfl | hn2
      · exact h.1
      · exact forestRefsOK_mem h.2 n hn2

/-- C3: referential integrity — every styleRef of every SimplifiedNode
reachable in a completed conversion's nodes is a key of the accompanying
globalVars table. -/
theorem referential_integrity (name lastModified : String) (roots : List RawNode)
    (maxDepth : Option Nat) :
    ∀ n ∈ (parseDesign name lastModified roots maxDepth).nodes,
      nodeRefsOK ((parseDesign name lastModified roots maxDepth).globalVars.map Prod.fst) n
        = true := by
  intro n hn
  exact forestRefsOK_mem (buildChildren_refs_ok roots maxDepth GlobalVariableTable.empty) n hn

/-- Closed instance of `referential_integrity` on a one-rectangle design:
the emitted node's styleRef 0 is a key of its globalVars. -/
theorem referential_integrity_witness :
    nodeRefsOK ((parseDesign "f" "t"
          [RawNode.node (mkFillProps "1:1" "RECTANGLE" 255 0 0) []] none).globalVars.map
        Prod.fst)
      (SimplifiedNode.node "1:1" "n" "RECTANGLE" none [0] []) = true :=
  referential_integrity "f" "t" [RawNode.node (mkFillProps "1:1" "RECTANGLE" 255 0 0) []] none
    (SimplifiedNode.node "1:1" "n" "RECTANGLE" none [0] []) (List.mem_singleton.mpr rfl)

theorem buildNode_invalid {p : RawProps} {cs : List RawNode} {d : Option Nat}
    {t : GlobalVariableTable} (h : rawValid (RawNode.node p cs) = false) :
    buildNode (RawNode.node p cs) d t = (none, t) := by
  rw [buildNode]
  rw [rawValid] at h
  simp only [RawNode.props] at h
  cases hid : p.id with
  | none => simp [hid]
  | some i =>
      cases hty : p.type with
      | none => simp [hid, hty]
      | some ty =>
          rw [hid, hty] at h
          simp at h

theorem buildNode_valid (p : RawProps) (cs : List RawNode) (i ty : String)
    (hid : p.id = some i) (hty : p.type = some ty) (d : Option Nat)
    (t : GlobalVariableTable) :
    ∃ s t2, buildNode (RawNode.node p cs) d t = (some s, t2) ∧
      s.id = i ∧ s.type = ty ∧ (d = some 0 → s.children = []) := by
  rw [buildNode]
  simp only [hid, hty]
  by_cases hr : recognizedType ty = true
  · rw [if_pos hr]
    cases d with
    | none => exact ⟨_, _, rfl, rfl, rfl, by simp⟩
    | some dd =>
        cases dd with
        | zero => exact ⟨_, _, rfl, rfl, rfl, fun _ => rfl⟩
        | succ k => exact ⟨_, _, rfl, rfl, rfl, by simp⟩
  · rw [if_neg hr]
    cases d with
    | none => exact ⟨_, _, rfl, rfl, rfl, by simp⟩
    | some dd =>
        cases dd with
        | zero => exact ⟨_, _, rfl, rfl, rfl, fun _ => rfl⟩
        | succ k => exact ⟨_, _, rfl, rfl, rfl, by simp⟩

mutual

theorem buildNode_depthLE : ∀ (r : RawNode) (dd : Nat) (t : GlobalVariableTable)
    (s : SimplifiedNode), (buildNode r (some dd) t).1 = some s → nodeDepthLE s dd = true
  | RawNode.node p cs, dd, t, s, hs => by
      cases hid : p.id with
      | none =>
          rw [buildNode] at hs
          simp [hid] at hs
      | some i =>
          cases hty : p.type with
          | none =>
              rw [buildNode] at hs
              simp [hid, hty] at hs
          | some ty =>
              rw [buildNode] at hs
              simp only [hid, hty] at hs
              by_cases hr : recognizedType ty = true
              · rw [if_pos hr] at hs
                cases dd with
                | zero =>
                    simp only [Option.some.injEq] at hs
                    subst hs
                    rfl
                | succ k =>
                    simp only [Option.some.injEq] at hs
                    subst hs
                    simp only [nodeDepthLE]
                    exact buildChildren_depthLE cs k _
              · rw [if_neg hr] at hs
                cases dd with
                | zero =>
                    simp only [Option.some.injEq] at hs
                    subst hs
                    rfl
                | succ k =>
                    simp only [Option.some.injEq] at hs
                    subst hs
                    simp only [nodeDepthLE]
                    exact buildChildren_depthLE cs k t

theorem buildChildren_depthLE : ∀ (l : List RawNode) (dd : Nat) (t : GlobalVariableTable),
    forestDepthLE (buildChildren l (some dd) t).1 dd = true
  | [], _, _ => rfl
  | c :: cs, dd, t => by
      simp only [buildChildren]
      cases hhd : (buildNode c (some dd) t).1 with
      | none => exact buildChildren_depthLE cs dd _
      | some s =>
          simp only [forestDepthLE, Bool.and_eq_true]
          exact ⟨buildNode_depthLE c dd t s hhd, buildChildren_depthLE cs dd _⟩

end

theorem forestDepthLE_mem : ∀ {d : Nat} {l : List SimplifiedNode},
    forestDepthLE l d = true → ∀ n ∈ l, nodeDepthLE n d = true
  | _, [], _, n, hn => by simp at hn
  | d, c :: cs, h, n, hn => by
      simp only [forestDepthLE, Bool.and_eq_true] at h
      rcases List.mem_cons.mp hn with rfl | hn2
      · exact h.1
      · exact forestDepthLE_mem h.2 n hn2

/-- C4: with maxDepth d no emitted node lies more than d edges below a
requested root (a node reached at the budget's edge keeps an empty
children sequence), and requesting a single valid node with maxDepth 0
returns exactly that one SimplifiedNode with an empty children
sequence. -/
theorem depth_bound :
    (∀ (name lastModified : String) (roots : List RawNode) (d : Nat),
      ∀ n ∈ (parseDesign name lastModified roots (some d)).nodes, nodeDepthLE n d = true) ∧
    (∀ (name lastModified : String) (p : RawProps) (cs : List RawNode) (i ty : String),
      p.id = some i → p.type = some ty →
      ∃ s, (parseDesign name lastModified [RawNode.node p cs] (some 0)).nodes = [s] ∧
        s.children = [] ∧ s.id = i) := by
  constructor
  · intro name lm roots d n hn
    exact forestDepthLE_mem (buildChildren_depthLE roots d GlobalVariableTable.empty) n hn
  · intro name lm p cs i ty hid hty
    obtain ⟨s, t2, hbuild, hsid, -, hch⟩ :=
      buildNode_valid p cs i ty hid hty (some 0) GlobalVariableTable.empty
    refine ⟨s, ?_, hch rfl, hsid⟩
    show (buildChildren [RawNode.node p cs] (some 0) GlobalVariableTable.empty).1 = [s]
    simp only [buildChildren, hbuild]

/-- Closed instance of `depth_bound`: a FRAME with one child requested at
maxDepth 0 comes back as a single childless node. -/
theorem depth_bound_witness :
    nodeDepthLE (SimplifiedNode.node "1:2" "n" "FRAME" none [0] []) 0 = true ∧
    ∃ s, (parseDesign "f" "t" [RawNode.node (mkProps "1:2" "FRAME")
          [RawNode.node (mkProps "1:3" "RECTANGLE") []]] (some 0)).nodes = [s] ∧
      s.children = [] ∧ s.id = "1:2" :=
  ⟨depth_bound.1 "f" "t"
      [RawNode.node (mkProps "1:2" "FRAME") [RawNode.node (mkProps "1:3" "RECTANGLE") []]] 0
      (SimplifiedNode.node "1:2" "n" "FRAME" none [0] []) (List.mem_singleton.mpr rfl),
   depth_bound.2 "f" "t" (mkProps "1:2" "FRAME") [RawNode.node (mkProps "1:3" "RECTANGLE") []]
      "1:2" "FRAME" rfl rfl⟩

theorem buildChildren_order : ∀ (l : List RawNode) (d : Option Nat) (t : GlobalVariableTable),
    ((buildChildren l d t).1).map SimplifiedNode.id = (l.filter rawValid).map rawId
  | [], _, _ => rfl
  | c :: cs, d, t => by
      simp only [buildChildren]
      cases c with
      | node p cs2 =>
          by_cases hv : rawValid (RawNode.node p cs2) = true
          · have hid : ∃ i, p.id = some i := by
              rw [rawValid] at hv
              simp only [RawNode.props, Bool.and_eq_true, Option.isSome_iff_exists] at hv
              exact hv.1
            have hty : ∃ ty, p.type = some ty := by
              rw [rawValid] at hv
              simp only [RawNode.props, Bool.and_eq_true, Option.isSome_iff_exists] at hv
              exact hv.2
            obtain ⟨i, hid⟩ := hid
            obtain ⟨ty, hty⟩ := hty
            obtain ⟨s, t2, hbuild, hsid, -, -⟩ := buildNode_valid p cs2 i ty hid hty d t
            simp only [hbuild, List.filter_cons, hv, if_true, List.map_cons]
            rw [hsid, buildChildren_order cs d t2, rawId, RawNode.props, hid]
            rfl
          · have hv2 : rawValid (RawNode.node p cs2) = false := by simpa using hv
            rw [buildNode_invalid hv2]
            simp only [List.filter_cons, hv2, if_false]
            exact buildChildren_order cs d t

theorem buildNode_children_order (p : RawProps) (cs : List RawNode) (d : Option Nat)
    (t : GlobalVariableTable) (s : SimplifiedNode) (hd0 : d ≠ some 0)
    (hs : (buildNode (RawNode.node p cs) d t).1 = some s) :
    s.children.map SimplifiedNode.id = (cs.filter rawValid).map rawId := by
  rw [buildNode] at hs
  cases hid : p.id with
  | none => simp [hid] at hs
  | some i =>
      cases hty : p.type with
      | none => simp [hid, hty] at hs
      | some ty =>
          simp only [hid, hty] at hs
          by_cases hr : recognizedType ty = true
          · rw [if_pos hr] at hs
            cases d with
            | none =>
                simp only [Option.some.injEq] at hs
                subst hs
                exact buildChildren_order cs none _
            | some dd =>
                cases dd with
                | zero => exact absurd rfl hd0
                | succ k =>
                    simp only [Option.some.injEq] at hs
                    subst hs
                    exact buildChildren_order cs (some k) _
          · rw [if_neg hr] at hs
            cases d with
            | none =>
                simp only [Option.some.injEq] at hs
                subst hs
                exact buildChildren_order cs none t
            | some dd =>
                cases dd with
                | zero => exact absurd rfl hd0
                | succ k =>
                    simp only [Option.some.injEq] at hs
                    subst hs
                    exact buildChildren_order cs (some k) t

/-- C5: order preservation — at every level the emitted children are
exactly the structurally valid raw children, in the raw tree's original
order (the walk is pre-order: a node is emitted before its recursively
built children, which are its own converted children list). -/
theorem order_preservation :
    (∀ (l : List RawNode) (d : Option Nat) (t : GlobalVariableTable),
      ((buildChildren l d t).1).map SimplifiedNode.id = (l.filter rawValid).map rawId) ∧
    (∀ (p : RawProps) (cs : List RawNode) (d : Option Nat) (t : GlobalVariableTable)
        (s : SimplifiedNode), d ≠ some 0 →
      (buildNode (RawNode.node p cs) d t).1 = some s →
      s.children.map SimplifiedNode.id = (cs.filter rawValid).map rawId) :=
  ⟨buildChildren_order, buildNode_children_order⟩

/-- Closed instance of `order_preservation`: a FRAME whose raw children
are a rectangle, a malformed node and a text node keeps children order
`a, c` (the malformed child is skipped). -/
theorem order_preservation_witness :
    (SimplifiedNode.node "p" "n" "FRAME" none [0]
        [SimplifiedNode.node "a" "n" "RECTANGLE" none [0] [],
         SimplifiedNode.node "c" "n" "TEXT" none [0] []]).children.map SimplifiedNode.id
      = (([RawNode.node (mkProps "a" "RECTANGLE") [],
           RawNode.node { mkProps "x" "y" with id := none } [],
           RawNode.node (mkProps "c" "TEXT") []]).filter rawValid).map rawId :=
  order_preservation.2 (mkProps "p" "FRAME")
    [RawNode.node (mkProps "a" "RECTANGLE") [],
     RawNode.node { mkProps "x" "y" with id := none } [],
     RawNode.node (mkProps "c" "TEXT") []] none GlobalVariableTable.empty
    (SimplifiedNode.node "p" "n" "FRAME" none [0]
      [SimplifiedNode.node "a" "n" "RECTANGLE" none [0] [],
       SimplifiedNode.node "c" "n" "TEXT" none [0] []])
    (by simp) rfl

theorem buildChildren_skip : ∀ (xs : List RawNode) (m : RawNode) (ys : List RawNode)
    (d : Option Nat) (t : GlobalVariableTable), rawValid m = false →
    buildChildren (xs ++ m :: ys) d t = buildChildren (xs ++ ys) d t
  | [], m, ys, d, t, hm => by
      cases m with
      | node p cs =>
          simp only [List.nil_append, buildChildren, buildNode_invalid hm]
  | x :: xs, m, ys, d, t, hm => by
      have ih : buildChildren (xs.append (m :: ys)) d (buildNode x d t).2
          = buildChildren (xs.append ys) d (buildNode x d t).2 :=
        buildChildren_skip xs m ys d (buildNode x d t).2 hm
      simp only [List.cons_append, buildChildren, ih]

theorem buildNode_unrecognized (p : RawProps) (cs : List RawNode) (d : Option Nat)
    (t : GlobalVariableTable) (i ty : String) (hid : p.id = some i)
    (hty : p.type = some ty) (hr : recognizedType ty = false) :
    ∃ kids t2, buildNode (RawNode.node p cs) d t
      = (some (SimplifiedNode.node i p.name ty none [] kids), t2) := by
  rw [buildNode]
  simp only [hid, hty]
  rw [if_neg (by simp [hr])]
  cases d with
  | none => exact ⟨_, _, rfl⟩
  | some dd =>
      cases dd with
      | zero => exact ⟨_, _, rfl⟩
      | succ k => exact ⟨_, _, rfl⟩

/-- C6: no error met during the walk aborts the conversion — a raw node
missing its id or type tag is skipped alone (the sibling walk is the walk
without it, same output and same table), and a valid node with an
unrecognized type tag still yields a minimal generic SimplifiedNode (id,
name, type, children; no text, no styleRefs) instead of failing. -/
theorem walk_error_recovery :
    (∀ (xs : List RawNode) (m : RawNode) (ys : List RawNode) (d : Option Nat)
        (t : GlobalVariableTable), rawValid m = false →
      buildChildren (xs ++ m :: ys) d t = buildChildren (xs ++ ys) d t) ∧
    (∀ (p : RawProps) (cs : List RawNode) (d : Option Nat) (t : GlobalVariableTable)
        (i ty : String), p.id = some i → p.type = some ty → recognizedType ty = false →
      ∃ kids t2, buildNode (RawNode.node p cs) d t
        = (some (SimplifiedNode.node i p.name ty none [] kids), t2)) :=
  ⟨buildChildren_skip, buildNode_unrecognized⟩

/-- Closed instance of `walk_error_recovery`: dropping one malformed
sibling leaves the walk unchanged, and a WIDGET node degrades to a
generic node. -/
theorem walk_error_recovery_witness :
    buildChildren [RawNode.node (mkProps "a" "RECTANGLE") [],
        RawNode.node { mkProps "x" "y" with id := none } [],
        RawNode.node (mkProps "c" "TEXT") []] none GlobalVariableTable.empty
      = buildChildren [RawNode.node (mkProps "a" "RECTANGLE") [],
          RawNode.node (mkProps "c" "TEXT") []] none GlobalVariableTable.empty ∧
    ∃ kids t2,
      buildNode (RawNode.node (mkProps "9:9" "WIDGET") []) none GlobalVariableTable.empty
        = (some (SimplifiedNode.node "9:9" "n" "WIDGET" none [] kids), t2) :=
  ⟨walk_error_recovery.1 [RawNode.node (mkProps "a" "RECTANGLE") []]
      (RawNode.node { mkProps "x" "y" with id := none } [])
      [RawNode.node (mkProps "c" "TEXT") []] none GlobalVariableTable.empty rfl,
   walk_error_recovery.2 (mkProps "9:9" "WIDGET") [] none GlobalVariableTable.empty
      "9:9" "WIDGET" rfl rfl rfl⟩
